import Mathlib

/-!
Verification of `src/pyutk/pyutk.py` (a thin Python wrapper around the UTK
native toolkit) against its natural-language specification.

Python strings are modelled as lists of characters (`Str`), Python's
`str.split`, `str.strip`, `str.join`, `int(...)` and the relevant `os.path`
helpers are translated below, and each Python function under verification is
embedded as an executable Lean definition that mirrors the source line by
line.  Mutating loops become folds over explicit state; Python `dict`s become
insertion-ordered association lists; Python exceptions become `Option`/`Except`
results (with partially-performed mutations kept, as CPython keeps them when
an exception is caught).
-/

/-- A Python `str`, modelled as its list of characters. -/
abbrev Str := List Char

/-- The whitespace characters stripped by Python `str.strip()` (ASCII part). -/
def isPyWS (c : Char) : Bool :=
  c == ' ' || c == '\t' || c == '\n' || c == '\r' || c == '\x0b' || c == '\x0c'

/-- Python `s.strip()`: remove leading and trailing whitespace. -/
def pyStrip (l : Str) : Str :=
  ((l.dropWhile isPyWS).reverse.dropWhile isPyWS).reverse

/-- Python `s.split(sep)` for a one-character separator `sep`: split at every
occurrence, keeping empty fields.  `splitChar c s` is never empty. -/
def splitChar (c : Char) : Str → List Str
  | [] => [[]]
  | a :: rest =>
    match splitChar c rest with
    | [] => [[]]
    | g :: gs => if a = c then [] :: g :: gs else (a :: g) :: gs

/-- Python `sep.join(parts)` for a one-character separator. -/
def joinSep (c : Char) : List Str → Str
  | [] => []
  | [t] => t
  | t :: t₂ :: ts => t ++ c :: joinSep c (t₂ :: ts)

/-- Total list indexing with a default (used to state element-wise facts). -/
def nth (l : List α) (i : Nat) (dflt : α) : α :=
  match l, i with
  | [], _ => dflt
  | x :: _, 0 => x
  | _ :: t, i + 1 => nth t i dflt

/-- Python `small in big` substring test: is `pat` a contiguous substring? -/
def isPrefixB : Str → Str → Bool
  | [], _ => true
  | _ :: _, [] => false
  | a :: as, b :: bs => a == b && isPrefixB as bs

/-- Python `pat in s` (substring containment). -/
def isInfixB (pat : Str) : Str → Bool
  | [] => isPrefixB pat []
  | a :: rest => isPrefixB pat (a :: rest) || isInfixB pat rest

/-- Decimal digit string to a number (all-ASCII-digits, non-empty). -/
def digitsToNat (l : Str) : Option Nat :=
  if l ≠ [] ∧ l.all Char.isDigit then
    some (l.foldl (fun a c => a * 10 + (c.toNat - 48)) 0)
  else none

/-- Python `int(s)`: strip whitespace, optional sign, decimal digits;
any other shape raises `ValueError`, modelled as `none`.  (Unicode digits and
digit-group underscores cannot occur here: the argument is a piece of a file
name already split on `_`.) -/
def parsePyInt (s : Str) : Option Int :=
  match pyStrip s with
  | '+' :: r => (digitsToNat r).map Int.ofNat
  | '-' :: r => (digitsToNat r).map (fun n => -(n : Int))
  | t => (digitsToNat t).map Int.ofNat

/-- `os.path.join(a, b)` (POSIX, the cases reachable here): an absolute `b`
wins; otherwise concatenate, inserting `/` unless `a` is empty or already ends
with `/`. -/
def pyJoin (a b : Str) : Str :=
  if b.head? = some '/' then b
  else if a = [] ∨ a.getLast? = some '/' then a ++ b
  else a ++ '/' :: b

/-- The lines yielded by iterating over an open text file, without their
terminating newline (the callers below `strip()` every line, so the
terminator never survives anyway). -/
def pyLines (s : Str) : List Str :=
  if s = [] then []
  else if s.getLast? = some '\n' then (splitChar '\n' s).dropLast
  else splitChar '\n' s

/-- Split a list into consecutive chunks of size `k`, discarding a trailing
incomplete chunk (the behaviour of `np.fromfile` on trailing bytes). -/
def chunksD (k : Nat) (l : List α) : List (List α) :=
  if hkl : 0 < k ∧ k ≤ l.length then l.take k :: chunksD k (l.drop k) else []
termination_by l.length
decreasing_by simp only [List.length_drop]; omega

/-- A big-endian unsigned word from a list of bytes (most significant first).
A big-endian IEEE-754 double is modelled by its 64-bit pattern. -/
def beWord (bs : List Nat) : Nat :=
  bs.foldl (fun a b => a * 256 + b) 0

/-- Ordered association-list lookup (Python `dict` access / `in`). -/
def alookup (m : List (Str × β)) (k : Str) : Option β :=
  match m with
  | [] => none
  | (k₂, v) :: r => if k₂ = k then some v else alookup r k

/-- Python `sorted` on integers. -/
def pySorted (l : List Int) : List Int :=
  l.insertionSort (fun a b => a ≤ b)

/-! ## Executable discovery: `get_samplers` (pyutk.py lines 94-158) -/

/-- One entry of `os.listdir`: its name, whether `os.access(.., X_OK)` holds
and whether it is a directory. -/
structure DirEntry where
  name : Str
  executable : Bool
  isDir : Bool
deriving DecidableEq, Repr

/-- `"samplers"`. -/
def samplersLit : Str := "samplers".toList

/-- `get_samplers_dir()` = `os.path.join(__UTK__DIR__, "samplers")`. -/
def get_samplers_dir (utkDir : Str) : Str :=
  pyJoin utkDir samplersLit

/-- `"dd"`. -/
def ddLit : Str := "dd".toList

/-- `"di"`. -/
def diLit : Str := "di".toList

/-- Lines 118-121: the filter.  Note that the source tests the substrings
`"dd"`/`"di"` against `filepath`, the full joined path, not against the bare
file name. -/
def is_sampler (utkDir : Str) (e : DirEntry) : Bool :=
  e.executable && !e.isDir &&
    (isInfixB ddLit (pyJoin (get_samplers_dir utkDir) e.name) ||
     isInfixB diLit (pyJoin (get_samplers_dir utkDir) e.name))

/-- Line 123: `sampler_info = file.split("_")`. -/
def sampler_info (e : DirEntry) : List Str :=
  splitChar '_' e.name

/-- Line 124: `sampler_name = "_".join(sampler_info[:-1])`. -/
def sampler_name (e : DirEntry) : Str :=
  joinSep '_' (sampler_info e).dropLast

/-- Line 127: `dim = int(sampler_info[-1][:-2])`; `none` models the raised
`ValueError` that line 148 swallows. -/
def parsedDim (e : DirEntry) : Option Int :=
  parsePyInt ((sampler_info e).getLastD []).dropLast.dropLast

/-- `set.add`, the Python `set` being modelled as its insertion-ordered list
of distinct elements (only its underlying finite set matters: only `sorted`
of it is ever returned). -/
def setAddVal (s : List Int) (v : Int) : List Int :=
  if v ∈ s then s else s ++ [v]

/-- `samplers[name] = set()` (if absent) followed by
`samplers[name].add(dim)`. -/
def dictSetAdd (m : List (Str × List Int)) (k : Str) (v : Int) :
    List (Str × List Int) :=
  match m with
  | [] => [(k, [v])]
  | (k₂, s) :: r =>
    if k₂ = k then (k₂, setAddVal s v) :: r
    else (k₂, s) :: dictSetAdd r k v

/-- One iteration of the `for file in os.listdir(...)` loop with
`split_i_d=False` (lines 117-149): skip non-samplers, skip entries whose
trailing token fails `int` parsing, otherwise add the dimension to the
name's set. -/
def samplerStep (utkDir : Str) (m : List (Str × List Int)) (e : DirEntry) :
    List (Str × List Int) :=
  if is_sampler utkDir e then
    match parsedDim e with
    | some dim => dictSetAdd m (sampler_name e) dim
    | none => m
  else m

/-- `get_samplers(split_i_d=False)`: the loop above followed by
`samplers[name] = sorted(samplers[name])` for every key (lines 151-153). -/
def get_samplers (utkDir : Str) (listing : List DirEntry) :
    List (Str × List Int) :=
  (listing.foldl (samplerStep utkDir) []).map (fun kv => (kv.1, pySorted kv.2))

/-- One iteration of the loop with `split_i_d=True` (lines 130-145).  After a
successful `int` parse the code creates `samplers[name] = {}` and the two
entries `"d"` and `"i"` as `set()`s, and then every branch either does nothing
or calls `.append` on one of those `set`s — `set` has no `append`, so an
`AttributeError` is raised and swallowed by `except Exception: pass`
(line 148), keeping the mutations already performed.  Hence the net effect of
an iteration is only to create the empty entry.  (A file name without `_`
instead raises `IndexError` at `sampler_info[1]`, with the same net effect.)
The pair `(d, i)` models the inner dict `{"d": ..., "i": ...}`. -/
def splitStep (utkDir : Str) (m : List (Str × (List Int × List Int)))
    (e : DirEntry) : List (Str × (List Int × List Int)) :=
  if is_sampler utkDir e then
    match parsedDim e with
    | some _ =>
      if (alookup m (sampler_name e)).isSome then m
      else m ++ [(sampler_name e, ([], []))]
    | none => m
  else m

/-- `get_samplers(split_i_d=True)`: the loop above followed by
`samplers[name]["d"] = sorted(samplers[name]["d"])` (lines 155-156); the
`"i"` component is left as a (here always empty) set. -/
def get_samplers_split (utkDir : Str) (listing : List DirEntry) :
    List (Str × (List Int × List Int)) :=
  (listing.foldl (splitStep utkDir) []).map
    (fun kv => (kv.1, (pySorted kv.2.1, kv.2.2)))

/-! ## Point reading: `PointReader` (pyutk.py lines 161-242) -/

/-- `Option`-valued map over a list: `none` as soon as one element fails
(a raised exception aborts the surrounding loop). -/
def mapMO (f : σ → Option β) : List σ → Option (List β)
  | [] => some []
  | x :: xs =>
    match f x, mapMO f xs with
    | some y, some ys => some (y :: ys)
    | _, _ => none

/-- `PointReader.read_bin` (lines 202-220): `np.fromfile(filepath, dtype=">d",
offset=4)` drops the first 4 bytes and decodes consecutive 8-byte groups as
big-endian doubles (each modelled by its 64-bit pattern, a trailing partial
group being discarded); `points.reshape((n, d))` raises `ValueError` (`none`)
unless exactly `n * d` values were read, and otherwise groups them row-major
into `n` rows of `d`. -/
def PointReader.read_bin (n d : Nat) (bytes : List Nat) :
    Option (List (List Nat)) :=
  let vals := (chunksD 8 (bytes.drop 4)).map beWord
  if vals.length = n * d then some (chunksD d vals) else none

/-- `PointReader.read_text` (lines 222-242), with the element type and the
`np.double` string parser abstracted as `parse`.  The source enumerates the
file's lines, strips each, splits on the separator and assigns row `i` of a
preallocated `(n, d)` array.  `none` models every failing outcome: more lines
than `n` (`IndexError`), a row of the wrong width (`ValueError`), an
unparseable coordinate, or fewer lines than `n` (rows left uninitialised by
`np.empty`, i.e. no specified result). -/
def PointReader.read_text (parse : Str → Option α) (sep : Char) (n d : Nat)
    (content : Str) : Option (List (List α)) :=
  let lines := pyLines content
  if lines.length = n then
    mapMO (fun line =>
      let coords := splitChar sep (pyStrip line)
      if coords.length = d then mapMO parse coords else none) lines
  else none

/-- The last path component (characters after the final `/`). -/
def lastComponent (p : Str) : Str :=
  (p.reverse.takeWhile (fun c => c != '/')).reverse

/-- `os.path.splitext(p)[1]` (POSIX `genericpath._splitext`): the extension
starts at the last `.` that lies after the last `/`, provided some earlier
character of the component is not a `.` (so dotfiles have no extension);
otherwise the extension is empty. -/
def extOf (p : Str) : Str :=
  let base := lastComponent p
  let afterRev := base.reverse.takeWhile (fun c => c != '.')
  if afterRev.length = base.length then []
  else
    let pre := base.take (base.length - afterRev.length - 1)
    if pre.any (fun c => c != '.') then '.' :: afterRev.reverse else []

/-- `".dat"`. -/
def datLit : Str := ".dat".toList

/-- Which reader `PointReader.read` dispatched to. -/
inductive ReadOutcome (α β : Type _)
  | text (v : α)
  | bin (v : β)

/-- `PointReader.read` (lines 180-200): dispatch on the extension.
`textResult`/`binResult` stand for the values `read_text`/`read_bin`
(modelled separately above) return on the file. -/
def PointReader.read (fp : Str) (textResult : α) (binResult : β) :
    ReadOutcome α β :=
  if extOf fp = datLit then .text textResult else .bin binResult

/-! ## Point writing: `PointWriter` (pyutk.py lines 244-337) -/

/-- Constructor arguments of `PointWriter` (line 255). -/
structure WriterCfg where
  sep : Char
  psep : Str
  append : Bool
deriving DecidableEq, Repr

/-- The defaults `sep='\t'`, `pointset_sep="#"`, `append=True`. -/
def defaultWriterCfg : WriterCfg :=
  ⟨'\t', "#".toList, true⟩

/-- One row of `points.astype(str)` joined with the separator (line 291). -/
def renderRow (render : α → Str) (sep : Char) (row : List α) : Str :=
  joinSep sep (row.map render)

/-- `__write_points` on pre-rendered rows: each row followed by `"\n"`
(lines 290-292). -/
def rowsText (rows : List Str) : Str :=
  (rows.map (fun r => r ++ ['\n'])).flatten

/-- `__write_points` (lines 278-292). -/
def writePoints (render : α → Str) (sep : Char) (pts : List (List α)) : Str :=
  rowsText (pts.map (renderRow render sep))

/-- `__process_header` (lines 294-308), as a function from the file contents
to the new contents: in append mode on a non-empty file, append a newline
unless the last character already is one, then the sentinel and a newline.
(The file is opened in append mode, so `tell()` is the length and writes land
at the end.) -/
def PointWriter.processHeader (cfg : WriterCfg) (content : Str) : Str :=
  if cfg.append then
    if content = [] then content
    else
      content ++ (if content.getLast? ≠ some '\n' then ['\n'] else []) ++
        cfg.psep ++ ['\n']
  else content

/-- `PointWriter.write` on a 2-D array (lines 310-325, the `points.ndim == 2`
branch): process the header, then write the rows. -/
def PointWriter.write (render : α → Str) (cfg : WriterCfg) (content : Str)
    (pts : List (List α)) : Str :=
  PointWriter.processHeader cfg content ++ writePoints render cfg.sep pts

/-! ## Discrepancy result parsing: `DiscrepancyReader` (lines 339-392) -/

/-- Lines 380-382: first line stripped and split on the separator, empty
tokens removed, the first `exclude` characters dropped, lower-cased. -/
def procNames (sep : Char) (exclude : Nat) (first : Str) : List Str :=
  ((splitChar sep (pyStrip first)).filter (fun nm => !nm.isEmpty)).map
    (fun nm => (nm.drop exclude).map Char.toLower)

/-- Lines 385-386: a data line stripped, split, empty tokens removed. -/
def filtToks (sep : Char) (line : Str) : List Str :=
  (splitChar sep (pyStrip line)).filter (fun t => !t.isEmpty)

/-- Python `dict` assignment `m[k] = v`: replace in place, or append. -/
def dictInsert (m : List (Str × β)) (k : Str) (v : β) : List (Str × β) :=
  match m with
  | [] => [(k, v)]
  | (k₂, v₂) :: r => if k₂ = k then (k₂, v) :: r else (k₂, v₂) :: dictInsert r k v

/-- Lines 388-390: `for name, value in zip(names, splitted):
result[name] = np.double(value)`; an unparseable value raises (`none`). -/
def buildLineDict (parseD : Str → Option α) :
    List (Str × Str) → List (Str × α) → Option (List (Str × α))
  | [], acc => some acc
  | (nm, tk) :: rest, acc =>
    match parseD tk with
    | some v => buildLineDict parseD rest (dictInsert acc nm v)
    | none => none

/-- `DiscrepancyReader.read` (lines 354-392), the `np.double` parser
abstracted as `parseD`: read the header names from the first line, then one
dictionary per remaining line. -/
def DiscrepancyReader.read (parseD : Str → Option α) (sep : Char)
    (exclude : Nat) (content : Str) : Option (List (List (Str × α))) :=
  let lines := pyLines content
  let names := procNames sep exclude (lines.headD [])
  mapMO (fun line => buildLineDict parseD (names.zip (filtToks sep line)) [])
    lines.tail

/-! ## Process-wide configuration (pyutk.py lines 7-57) and the filesystem -/

/-- Python exceptions distinguished by the claims. -/
inductive PyErr
  | fileNotFoundError
  | typeError
deriving DecidableEq, Repr

/-- The module globals `__UTK__DIR__`, `__UTK__WDIR__`, `__UTK__SILENCE__`. -/
structure UtkConfig where
  utkDir : Str
  utkWdir : Str
  silence : Bool
deriving DecidableEq, Repr

/-- Lines 7-9: `""`, `tempfile.gettempdir()` (concretely `/tmp`), `True`. -/
def defaultUtkConfig : UtkConfig :=
  ⟨[], "/tmp".toList, true⟩

/-- The filesystem, modelled as the list of existing paths. -/
abbrev FS := List Str

/-- `os.path.exists`. -/
def pathExists (fs : FS) (p : Str) : Bool :=
  fs.contains p

/-- `os.path.dirname` (POSIX): everything up to the last `/`, trailing
slashes stripped unless the head is all slashes. -/
def dirnameOf (p : Str) : Str :=
  let afterRev := p.reverse.takeWhile (fun c => c != '/')
  if afterRev.length = p.length then []
  else
    let head := p.take (p.length - afterRev.length)
    if head.all (fun c => c == '/') then head
    else (head.reverse.dropWhile (fun c => c == '/')).reverse

/-- `os.mkdir`: create a directory whose parent exists, else
`FileNotFoundError`.  (Only called on non-existing paths here.) -/
def os_mkdir (fs : FS) (p : Str) : Except PyErr FS :=
  if pathExists fs (dirnameOf p) then .ok (p :: fs) else .error .fileNotFoundError

/-- `set_dir` (lines 12-25): raise `FileNotFoundError` when the path does not
exist, otherwise assign the global `__UTK__DIR__` (declared `global`). -/
def set_dir (c : UtkConfig) (fs : FS) (d : Str) : Except PyErr UtkConfig :=
  if pathExists fs d then .ok { c with utkDir := d } else .error .fileNotFoundError

/-- `set_wdir` (lines 27-42): create the directory when missing.  The final
statement `__UTK__DIR__ = dir` (line 42) has no `global` declaration — unlike
line 21 in `set_dir` — so it binds a function-local name and the module
globals are left untouched (and even the name is `__UTK__DIR__`, not
`__UTK__WDIR__`).  Hence the configuration part of the state never changes. -/
def set_wdir (c : UtkConfig) (fs : FS) (d : Str) : Except PyErr (UtkConfig × FS) :=
  if pathExists fs d then .ok (c, fs)
  else
    match os_mkdir fs d with
    | .ok fs₂ => .ok (c, fs₂)
    | .error e => .error e

/-- Line 437: `Sampler.sample` places its temporary file in
`os.path.join(__UTK__WDIR__, uuid4().hex + ".dat")`, i.e. in the directory
held by the global `__UTK__WDIR__`. -/
def Sampler.tmpOutDir (c : UtkConfig) : Str :=
  c.utkWdir

/-! ## `Discrepancy.compute` (pyutk.py lines 499-526) -/

/-- Parameters of `def write(self, points=np.asarray([[]]))` (line 310)
besides `self`: one, with one default. -/
def writeParamCount : Nat := 1

/-- Number of those parameters that carry a default value. -/
def writeDefaultCount : Nat := 1

/-- Whether a Python call with `args` positional arguments to a bound method
with `params` parameters (besides `self`), `defaults` of them defaulted, is
accepted; otherwise the call raises `TypeError`. -/
def pyCallArgsOk (params defaults args : Nat) : Bool :=
  args ≤ params && params - defaults ≤ args

/-- `Discrepancy.compute` (lines 499-526).  Line 520 is
`writer.write(tmpfile, points)`: two positional arguments to
`PointWriter.write`, which accepts at most one, so the call raises
`TypeError` before anything is written.  `rest` abstracts the remainder of
the method (writing the temporary file, spawning the subprocess, parsing and
cleaning up), which is unreachable. -/
def Discrepancy.compute (rest : List (List α) → Except PyErr β)
    (points : List (List α)) : Except PyErr β :=
  if pyCallArgsOk writeParamCount writeDefaultCount 2 then rest points
  else .error .typeError

/-! ## Specification-side definitions (from the spec wording, for comparison) -/

/-- `set.add` iterated over a list of values. -/
def addAll (s : List Int) (ds : List Int) : List Int :=
  ds.foldl setAddVal s

/-- The dimensions that the source actually collects under a given sampler
name: those of listing entries passing the `is_sampler` filter, carrying that
name, whose trailing token (last two characters removed) parses as an
integer. -/
def dimsOf (utkDir : Str) (listing : List DirEntry) (nm : Str) : List Int :=
  listing.filterMap (fun e =>
    if is_sampler utkDir e = true ∧ sampler_name e = nm then parsedDim e
    else none)

/-- The qualification predicate as the claim words it: executable, not a
directory, and the bare *file name* contains `"dd"` or `"di"`. -/
def fileNameQualifies (e : DirEntry) : Bool :=
  e.executable && !e.isDir && (isInfixB ddLit e.name || isInfixB diLit e.name)

/-- The key set the claim predicts for `get_samplers`: the names of exactly
the entries qualifying by file name. -/
def claimedKeys (listing : List DirEntry) : List Str :=
  (listing.filter fileNameQualifies).map sampler_name

/-- The claim's notion of "the path's extension is `.dat`", stated
declaratively: the last path component ends in `".dat"` and what precedes
that suffix contains some character other than `.` (so `".dat"`, `"..dat"`
or `"dir/.dat"` themselves have no extension). -/
def hasDatExt (p : Str) : Prop :=
  ∃ pre, lastComponent p = pre ++ datLit ∧ ∃ c ∈ pre, c ≠ '.'

/-! ## Helper lemmas: splitting, joining, stripping -/

theorem splitChar_cons (c a : Char) (rest : Str) :
    splitChar c (a :: rest) =
      match splitChar c rest with
      | [] => [[]]
      | g :: gs => if a = c then [] :: g :: gs else (a :: g) :: gs := rfl

theorem splitChar_ne_nil (c : Char) : ∀ l : Str, splitChar c l ≠ [] := by
  intro l
  cases l with
  | nil => simp [splitChar]
  | cons a rest =>
    rw [splitChar_cons]
    cases h : splitChar c rest with
    | nil => simp
    | cons g gs => by_cases hac : a = c <;> simp [hac]

theorem splitChar_cons_sep (c : Char) (rest : Str) :
    splitChar c (c :: rest) = [] :: splitChar c rest := by
  rw [splitChar_cons]
  cases h : splitChar c rest with
  | nil => exact absurd h (splitChar_ne_nil c rest)
  | cons g gs => simp

theorem splitChar_cons_ne {c a : Char} {rest g : Str} {gs : List Str}
    (hac : a ≠ c) (h : splitChar c rest = g :: gs) :
    splitChar c (a :: rest) = (a :: g) :: gs := by
  rw [splitChar_cons, h]
  simp [hac]

theorem splitChar_append_no_sep {c : Char} :
    ∀ (xs rest g : Str) (gs : List Str), (∀ x ∈ xs, x ≠ c) →
      splitChar c rest = g :: gs → splitChar c (xs ++ rest) = (xs ++ g) :: gs := by
  intro xs
  induction xs with
  | nil =>
    intro rest g gs _ h
    simpa using h
  | cons x xs ih =>
    intro rest g gs hx h
    have hxc : x ≠ c := hx x (by simp)
    have hrec := ih rest g gs (fun y hy => hx y (by simp [hy])) h
    rw [List.cons_append, splitChar_cons_ne hxc hrec]
    simp

theorem splitChar_no_sep {c : Char} {xs : Str} (hx : ∀ x ∈ xs, x ≠ c) :
    splitChar c xs = [xs] := by
  have h0 : splitChar c ([] : Str) = [] :: [] := by simp [splitChar]
  have := splitChar_append_no_sep xs [] [] [] hx h0
  simpa using this

theorem joinSep_cons₂ (c : Char) (t t₂ : Str) (ts : List Str) :
    joinSep c (t :: t₂ :: ts) = t ++ c :: joinSep c (t₂ :: ts) := rfl

theorem splitChar_joinSep {c : Char} :
    ∀ ts : List Str, ts ≠ [] → (∀ t ∈ ts, ∀ x ∈ t, x ≠ c) →
      splitChar c (joinSep c ts) = ts := by
  intro ts
  induction ts with
  | nil => intro h _; cases h rfl
  | cons t ts ih =>
    intro _ hx
    cases ts with
    | nil => simpa [joinSep] using splitChar_no_sep (hx t (by simp))
    | cons t₂ ts₂ =>
      have hrec := ih (by simp) (fun u hu x hxu => hx u (by simp [hu]) x hxu)
      have h2 : splitChar c (c :: joinSep c (t₂ :: ts₂)) = [] :: (t₂ :: ts₂) := by
        rw [splitChar_cons_sep, hrec]
      have h3 := splitChar_append_no_sep t (c :: joinSep c (t₂ :: ts₂)) []
        (t₂ :: ts₂) (fun x hxt => hx t (by simp) x hxt) h2
      rw [joinSep_cons₂]
      simpa using h3

theorem mem_joinSep {c x : Char} :
    ∀ ts : List Str, x ∈ joinSep c ts → x = c ∨ ∃ t ∈ ts, x ∈ t := by
  intro ts
  induction ts with
  | nil => simp [joinSep]
  | cons t ts ih =>
    cases ts with
    | nil =>
      intro h
      exact Or.inr ⟨t, by simp, by simpa [joinSep] using h⟩
    | cons t₂ ts₂ =>
      intro h
      rw [joinSep_cons₂] at h
      rcases List.mem_append.mp h with h1 | h2
      · exact Or.inr ⟨t, by simp, h1⟩
      · rcases List.mem_cons.mp h2 with rfl | h3
        · exact Or.inl rfl
        · rcases ih h3 with h4 | ⟨u, hu, hxu⟩
          · exact Or.inl h4
          · exact Or.inr ⟨u, by simp [hu], hxu⟩

theorem joinSep_head {c : Char} {t : Str} (ht : t ≠ []) (ts : List Str) :
    ∃ x, (joinSep c (t :: ts)).head? = some x ∧ x ∈ t := by
  cases t with
  | nil => cases ht rfl
  | cons a t₃ =>
    cases ts with
    | nil => exact ⟨a, by simp [joinSep], by simp⟩
    | cons t₂ ts₂ => exact ⟨a, by simp [joinSep_cons₂], by simp⟩

theorem getLast?_append_ne (l₁ : List α) {l₂ : List α} (h : l₂ ≠ []) :
    (l₁ ++ l₂).getLast? = l₂.getLast? := by
  induction l₁ with
  | nil => rfl
  | cons a l ih =>
    have h₂ : l ++ l₂ ≠ [] := fun hh => h (List.append_eq_nil.mp hh).2
    obtain ⟨b, l₃, hb⟩ := List.exists_cons_of_ne_nil h₂
    rw [List.cons_append, hb, List.getLast?_cons_cons, ← hb, ih]

theorem mem_of_getLast?₂ : ∀ {l : List α} {a : α}, l.getLast? = some a → a ∈ l := by
  intro l
  induction l with
  | nil => intro a h; simp at h
  | cons x t ih =>
    intro a h
    cases t with
    | nil =>
      simp only [List.getLast?_singleton, Option.some.injEq] at h
      simp [h]
    | cons y t₂ =>
      rw [List.getLast?_cons_cons] at h
      exact List.mem_cons_of_mem x (ih h)

theorem joinSep_last {c : Char} :
    ∀ ts : List Str, ts ≠ [] → (∀ t ∈ ts, t ≠ []) →
      ∃ x u, (joinSep c ts).getLast? = some x ∧ u ∈ ts ∧ x ∈ u := by
  intro ts
  induction ts with
  | nil => intro h _; cases h rfl
  | cons t ts ih =>
    intro _ hne
    cases ts with
    | nil =>
      have ht : t ≠ [] := hne t (by simp)
      cases hx : t.getLast? with
      | none =>
        cases t with
        | nil => cases ht rfl
        | cons y t₃ => simp [List.getLast?_eq_none_iff] at hx
      | some x =>
        exact ⟨x, t, by simpa [joinSep] using hx, by simp, mem_of_getLast?₂ hx⟩
    | cons t₂ ts₂ =>
      obtain ⟨x, u, hgl, hu, hxu⟩ := ih (by simp) (fun v hv => hne v (by simp [hv]))
      refine ⟨x, u, ?_, by simp [hu], hxu⟩
      have hne₂ : joinSep c (t₂ :: ts₂) ≠ [] := by
        obtain ⟨y, hy, _⟩ := joinSep_head (c := c) (hne t₂ (by simp)) ts₂
        intro hnil
        rw [hnil] at hy
        simp at hy
      have hsplit : t ++ c :: joinSep c (t₂ :: ts₂) =
          (t ++ [c]) ++ joinSep c (t₂ :: ts₂) := by simp
      rw [joinSep_cons₂, hsplit, getLast?_append_ne _ hne₂, hgl]

theorem dropWhile_of_head {p : α → Bool} {a : α} {l : List α} (h : p a = false) :
    (a :: l).dropWhile p = a :: l := by
  simp [List.dropWhile_cons, h]

theorem pyStrip_id {l : Str}
    (h1 : ∀ x, l.head? = some x → isPyWS x = false)
    (h2 : ∀ x, l.getLast? = some x → isPyWS x = false) : pyStrip l = l := by
  cases l with
  | nil => rfl
  | cons a t =>
    have ha := h1 a rfl
    unfold pyStrip
    rw [dropWhile_of_head ha]
    cases hrev : (a :: t).reverse with
    | nil => simp at hrev
    | cons b r =>
      have hlast : (a :: t).getLast? = some b := by
        rw [← List.head?_reverse, hrev]
        rfl
      have hb := h2 b hlast
      rw [dropWhile_of_head hb, ← hrev, List.reverse_reverse]

/-! ## Helper lemmas: indexing, chunking, option-mapping -/

theorem nth_map (f : α → β) :
    ∀ (l : List α) (i : Nat) (d₁ : α) (d₂ : β), i < l.length →
      nth (l.map f) i d₂ = f (nth l i d₁) := by
  intro l
  induction l with
  | nil => intro i d₁ d₂ hi; simp at hi
  | cons x t ih =>
    intro i d₁ d₂ hi
    cases i with
    | zero => rfl
    | succ i => exact ih i d₁ d₂ (by simpa using hi)

theorem nth_take :
    ∀ (k : Nat) (l : List α) (i : Nat) (d : α), i < k →
      nth (l.take k) i d = nth l i d := by
  intro k
  induction k with
  | zero => intro l i d hi; omega
  | succ k ih =>
    intro l i d hi
    cases l with
    | nil => simp [nth]
    | cons x t =>
      cases i with
      | zero => rfl
      | succ i => exact ih t i d (by omega)

theorem nth_drop :
    ∀ (a : Nat) (l : List α) (i : Nat) (d : α),
      nth (l.drop a) i d = nth l (a + i) d := by
  intro a
  induction a with
  | zero => intro l i d; simp
  | succ a ih =>
    intro l i d
    cases l with
    | nil => simp [nth]
    | cons x t =>
      have harith : a + 1 + i = (a + i) + 1 := by omega
      rw [List.drop_succ_cons, ih t i d, harith]
      rfl

theorem nth_mem : ∀ (l : List α) (i : Nat) (d : α), i < l.length → nth l i d ∈ l := by
  intro l
  induction l with
  | nil => intro i d hi; simp at hi
  | cons x t ih =>
    intro i d hi
    cases i with
    | zero => simp [nth]
    | succ i => exact List.mem_cons_of_mem x (ih i d (by simpa using hi))

theorem chunksD_eq (k : Nat) (l : List α) :
    chunksD k l =
      if 0 < k ∧ k ≤ l.length then l.take k :: chunksD k (l.drop k) else [] := by
  rw [chunksD]
  split <;> simp_all

theorem chunksD_spec :
    ∀ (m k : Nat) (l : List α), 0 < k → l.length = k * m →
      (chunksD k l).length = m ∧
        ∀ i, i < m → nth (chunksD k l) i [] = (l.drop (k * i)).take k := by
  intro m
  induction m with
  | zero =>
    intro k l hk hl
    rw [chunksD_eq, if_neg (by omega)]
    refine ⟨rfl, ?_⟩
    intro i hi
    exact absurd hi (by omega)
  | succ m ih =>
    intro k l hk hl
    have hkl : k ≤ l.length := by rw [hl, Nat.mul_succ]; omega
    have hdl : (l.drop k).length = k * m := by
      rw [List.length_drop, hl, Nat.mul_succ]; omega
    obtain ⟨ihlen, ihnth⟩ := ih k (l.drop k) hk hdl
    rw [chunksD_eq, if_pos ⟨hk, hkl⟩]
    refine ⟨by simp [ihlen], ?_⟩
    intro i hi
    cases i with
    | zero => simp [nth]
    | succ i =>
      have h1 : nth (l.take k :: chunksD k (l.drop k)) (i + 1) [] =
          nth (chunksD k (l.drop k)) i [] := rfl
      rw [h1, ihnth i (by omega), List.drop_drop]
      congr 2
      ring

theorem mapMO_nil (f : σ → Option β) : mapMO f [] = some [] := rfl

theorem mapMO_map_id {f : γ → Option δ} {h : δ → γ} :
    ∀ l : List δ, (∀ r ∈ l, f (h r) = some r) → mapMO f (l.map h) = some l := by
  intro l
  induction l with
  | nil => intro _; rfl
  | cons r t ih =>
    intro hyp
    have h1 : f (h r) = some r := hyp r (by simp)
    have h2 := ih (fun x hx => hyp x (by simp [hx]))
    simp [mapMO, h1, h2]

theorem mapMO_nth {f : σ → Option β} :
    ∀ (l : List σ) (res : List β), mapMO f l = some res →
      res.length = l.length ∧
        ∀ (i : Nat) (d₁ : σ) (d₂ : β), i < l.length →
          f (nth l i d₁) = some (nth res i d₂) := by
  intro l
  induction l with
  | nil =>
    intro res h
    simp only [mapMO] at h
    cases h
    exact ⟨rfl, fun i d₁ d₂ hi => by simp at hi⟩
  | cons x t ih =>
    intro res h
    simp only [mapMO] at h
    cases hfx : f x with
    | none => rw [hfx] at h; simp at h
    | some y =>
      cases hmt : mapMO f t with
      | none => rw [hfx, hmt] at h; simp at h
      | some ys =>
        rw [hfx, hmt] at h
        simp only [Option.some.injEq] at h
        obtain ⟨ihl, ihn⟩ := ih ys hmt
        subst h
        refine ⟨by simp [ihl], ?_⟩
        intro i d₁ d₂ hi
        cases i with
        | zero => simpa [nth] using hfx
        | succ i => exact ihn i d₁ d₂ (by simpa using hi)

theorem mapMO_isSome {f : σ → Option β} :
    ∀ l : List σ, (∀ x ∈ l, (f x).isSome = true) →
      ∃ res, mapMO f l = some res := by
  intro l
  induction l with
  | nil => intro _; exact ⟨[], rfl⟩
  | cons x t ih =>
    intro hyp
    obtain ⟨y, hy⟩ := Option.isSome_iff_exists.mp (hyp x (by simp))
    obtain ⟨ys, hys⟩ := ih (fun z hz => hyp z (by simp [hz]))
    exact ⟨y :: ys, by simp [mapMO, hy, hys]⟩

/-! ## Helper lemmas: association lists and sets -/

theorem alookup_dictSetAdd_none :
    ∀ (m : List (Str × List Int)) (k : Str) (v : Int), alookup m k = none →
      alookup (dictSetAdd m k v) k = some [v] := by
  intro m
  induction m with
  | nil => intro k v _; simp [dictSetAdd, alookup]
  | cons kv r ih =>
    intro k v h
    obtain ⟨k₂, s⟩ := kv
    by_cases hk : k₂ = k
    · simp [alookup, hk] at h
    · simp only [alookup, if_neg hk] at h
      simp [dictSetAdd, if_neg hk, alookup, hk, ih k v h]

theorem alookup_dictSetAdd_some :
    ∀ (m : List (Str × List Int)) (k : Str) (v : Int) (s : List Int),
      alookup m k = some s →
      alookup (dictSetAdd m k v) k = some (setAddVal s v) := by
  intro m
  induction m with
  | nil => intro k v s h; simp [alookup] at h
  | cons kv r ih =>
    intro k v s h
    obtain ⟨k₂, s₂⟩ := kv
    by_cases hk : k₂ = k
    · simp only [alookup, if_pos hk, Option.some.injEq] at h
      subst h
      simp [dictSetAdd, if_pos hk, alookup, hk]
    · simp only [alookup, if_neg hk] at h
      simp [dictSetAdd, if_neg hk, alookup, hk, ih k v s h]

theorem alookup_dictSetAdd_other :
    ∀ (m : List (Str × List Int)) (k k₃ : Str) (v : Int), k₃ ≠ k →
      alookup (dictSetAdd m k v) k₃ = alookup m k₃ := by
  intro m
  induction m with
  | nil =>
    intro k k₃ v hne
    have hne₂ : k ≠ k₃ := Ne.symm hne
    simp [dictSetAdd, alookup, hne₂]
  | cons kv r ih =>
    intro k k₃ v hne
    obtain ⟨k₂, s⟩ := kv
    by_cases hk : k₂ = k
    · subst hk
      have hne₂ : k₂ ≠ k₃ := Ne.symm hne
      simp [dictSetAdd, alookup, hne₂]
    · by_cases hk₃ : k₂ = k₃ <;>
        simp [dictSetAdd, if_neg hk, alookup, hk₃, hne, ih k k₃ v hne]

theorem alookup_map (f : β → γ) :
    ∀ (m : List (Str × β)) (k : Str),
      alookup (m.map (fun kv => (kv.1, f kv.2))) k = (alookup m k).map f := by
  intro m
  induction m with
  | nil => intro k; rfl
  | cons kv r ih =>
    intro k
    obtain ⟨k₂, v⟩ := kv
    by_cases hk : k₂ = k <;> simp [alookup, hk, ih]

theorem mem_setAddVal {s : List Int} {v x : Int} :
    x ∈ setAddVal s v ↔ x ∈ s ∨ x = v := by
  by_cases h : v ∈ s
  · simp only [setAddVal, if_pos h]
    constructor
    · exact Or.inl
    · rintro (hx | rfl)
      · exact hx
      · exact h
  · simp [setAddVal, if_neg h]

theorem nodup_setAddVal {s : List Int} {v : Int} (h : s.Nodup) :
    (setAddVal s v).Nodup := by
  by_cases hv : v ∈ s
  · simpa [setAddVal, hv] using h
  · simp [setAddVal, hv, List.nodup_append, h]

theorem addAll_cons (s : List Int) (d : Int) (ds : List Int) :
    addAll s (d :: ds) = addAll (setAddVal s d) ds := rfl

theorem mem_addAll :
    ∀ (ds s : List Int) (x : Int), x ∈ addAll s ds ↔ x ∈ s ∨ x ∈ ds := by
  intro ds
  induction ds with
  | nil => intro s x; simp [addAll]
  | cons d ds ih =>
    intro s x
    rw [addAll_cons, ih, mem_setAddVal]
    simp
    tauto

theorem nodup_addAll :
    ∀ (ds s : List Int), s.Nodup → (addAll s ds).Nodup := by
  intro ds
  induction ds with
  | nil => intro s h; simpa [addAll] using h
  | cons d ds ih =>
    intro s h
    rw [addAll_cons]
    exact ih _ (nodup_setAddVal h)

/-! ## Helper lemmas: written files and their lines -/

theorem rowsText_ne_nil {rows : List Str} (h : rows ≠ []) : rowsText rows ≠ [] := by
  cases rows with
  | nil => cases h rfl
  | cons r t => simp [rowsText]

theorem rowsText_getLast :
    ∀ {rows : List Str}, rows ≠ [] → (rowsText rows).getLast? = some '\n' := by
  intro rows
  induction rows with
  | nil => intro h; cases h rfl
  | cons r t ih =>
    intro _
    cases t with
    | nil =>
      have h1 : rowsText [r] = r ++ ['\n'] := by simp [rowsText]
      rw [h1, getLast?_append_ne r (by simp)]
      rfl
    | cons r₂ t₂ =>
      have h1 : rowsText (r :: r₂ :: t₂) = (r ++ ['\n']) ++ rowsText (r₂ :: t₂) := by
        simp [rowsText]
      rw [h1, getLast?_append_ne _ (rowsText_ne_nil (by simp))]
      exact ih (by simp)

theorem splitChar_rowsText :
    ∀ {rows : List Str}, (∀ r ∈ rows, '\n' ∉ r) →
      splitChar '\n' (rowsText rows) = rows ++ [[]] := by
  intro rows
  induction rows with
  | nil => simp [rowsText, splitChar]
  | cons r t ih =>
    intro hnl
    have h1 : rowsText (r :: t) = r ++ '\n' :: rowsText t := by simp [rowsText]
    have h3 := ih (fun x hx => hnl x (by simp [hx]))
    have h4 : splitChar '\n' ('\n' :: rowsText t) = [] :: (t ++ [[]]) := by
      rw [splitChar_cons_sep, h3]
    have hr : ∀ x ∈ r, x ≠ '\n' := by
      intro x hx he
      exact hnl r (by simp) (he ▸ hx)
    have h5 := splitChar_append_no_sep r ('\n' :: rowsText t) [] (t ++ [[]]) hr h4
    rw [h1, h5]
    simp

theorem pyLines_rowsText {rows : List Str} (h : rows ≠ [])
    (hnl : ∀ r ∈ rows, '\n' ∉ r) : pyLines (rowsText rows) = rows := by
  unfold pyLines
  rw [if_neg (rowsText_ne_nil h), if_pos (rowsText_getLast h), splitChar_rowsText hnl]
  simp

/-! ## Helper lemmas: `dict` insertion and the discovery fold -/

theorem alookup_dictInsert_self (m : List (Str × β)) (k : Str) (v : β) :
    alookup (dictInsert m k v) k = some v := by
  induction m with
  | nil => simp [dictInsert, alookup]
  | cons kv r ih =>
    obtain ⟨k₂, v₂⟩ := kv
    by_cases hk : k₂ = k <;> simp [dictInsert, alookup, hk, ih]

theorem alookup_dictInsert_other {m : List (Str × β)} {k k₃ : Str} (v : β)
    (hne : k₃ ≠ k) : alookup (dictInsert m k v) k₃ = alookup m k₃ := by
  induction m with
  | nil =>
    have hne₂ : k ≠ k₃ := Ne.symm hne
    simp [dictInsert, alookup, hne₂]
  | cons kv r ih =>
    obtain ⟨k₂, v₂⟩ := kv
    by_cases hk : k₂ = k
    · subst hk
      have hne₂ : k₂ ≠ k₃ := Ne.symm hne
      simp [dictInsert, alookup, hne₂]
    · by_cases hk₃ : k₂ = k₃ <;>
        simp [dictInsert, if_neg hk, alookup, hk₃, hne, ih]

theorem splitStep_values (u : Str) (m : List (Str × (List Int × List Int)))
    (e : DirEntry) (hm : ∀ kv ∈ m, kv.2 = ([], [])) :
    ∀ kv ∈ splitStep u m e, kv.2 = ([], []) := by
  intro kv hkv
  unfold splitStep at hkv
  by_cases hq : is_sampler u e = true
  · rw [if_pos hq] at hkv
    cases hd : parsedDim e with
    | none => rw [hd] at hkv; exact hm kv hkv
    | some dim =>
      rw [hd] at hkv
      by_cases hs : (alookup m (sampler_name e)).isSome = true
      · rw [if_pos hs] at hkv
        exact hm kv hkv
      · rw [if_neg hs] at hkv
        rcases List.mem_append.mp hkv with h1 | h2
        · exact hm kv h1
        · simp only [List.mem_singleton] at h2
          rw [h2]
  · rw [if_neg hq] at hkv
    exact hm kv hkv

theorem splitFold_values (u : Str) :
    ∀ (listing : List DirEntry) (m : List (Str × (List Int × List Int))),
      (∀ kv ∈ m, kv.2 = ([], [])) →
      ∀ kv ∈ listing.foldl (splitStep u) m, kv.2 = ([], []) := by
  intro listing
  induction listing with
  | nil => intro m hm kv hkv; exact hm kv hkv
  | cons e listing ih =>
    intro m hm kv hkv
    rw [List.foldl_cons] at hkv
    exact ih _ (splitStep_values u m e hm) kv hkv

theorem lookup_samplerFold (u : Str) :
    ∀ (listing : List DirEntry) (m : List (Str × List Int)) (nm : Str),
      alookup (listing.foldl (samplerStep u) m) nm =
        match alookup m nm with
        | some s => some (addAll s (dimsOf u listing nm))
        | none =>
          if dimsOf u listing nm = [] then none
          else some (addAll [] (dimsOf u listing nm)) := by
  intro listing
  induction listing with
  | nil =>
    intro m nm
    cases halm : alookup m nm <;> simp [dimsOf, addAll, halm]
  | cons e listing ih =>
    intro m nm
    rw [List.foldl_cons]
    by_cases hq : is_sampler u e = true
    · cases hd : parsedDim e with
      | none =>
        have hstep : samplerStep u m e = m := by simp [samplerStep, hq, hd]
        have hdims : dimsOf u (e :: listing) nm = dimsOf u listing nm := by
          by_cases hc : is_sampler u e = true ∧ sampler_name e = nm
          · simp [dimsOf, List.filterMap_cons, hc, hd]
          · simp [dimsOf, List.filterMap_cons, hc]
        rw [hstep, hdims]
        exact ih m nm
      | some dim =>
        by_cases hnm : sampler_name e = nm
        · subst hnm
          have hstep : samplerStep u m e = dictSetAdd m (sampler_name e) dim := by
            simp [samplerStep, hq, hd]
          have hdims : dimsOf u (e :: listing) (sampler_name e) =
              dim :: dimsOf u listing (sampler_name e) := by
            simp [dimsOf, List.filterMap_cons, hq, hd]
          rw [hstep, hdims, ih (dictSetAdd m (sampler_name e) dim) (sampler_name e)]
          cases halm : alookup m (sampler_name e) with
          | some s =>
            rw [alookup_dictSetAdd_some m (sampler_name e) dim s halm]
            simp [addAll_cons]
          | none =>
            rw [alookup_dictSetAdd_none m (sampler_name e) dim halm]
            have hset : setAddVal [] dim = [dim] := by simp [setAddVal]
            simp [addAll_cons, hset]
        · have hstep : samplerStep u m e = dictSetAdd m (sampler_name e) dim := by
            simp [samplerStep, hq, hd]
          have hdims : dimsOf u (e :: listing) nm = dimsOf u listing nm := by
            simp [dimsOf, List.filterMap_cons, hnm]
          rw [hstep, ih (dictSetAdd m (sampler_name e) dim) nm,
            alookup_dictSetAdd_other m (sampler_name e) nm dim (Ne.symm hnm), hdims]
    · have hstep : samplerStep u m e = m := by simp [samplerStep, hq]
      have hdims : dimsOf u (e :: listing) nm = dimsOf u listing nm := by
        simp [dimsOf, List.filterMap_cons, hq]
      rw [hstep, hdims]
      exact ih m nm

/-! ## Claim theorems -/

/-- C6 (code_bug evidence): with `split_i_d=True`, `get_samplers` never
records any dimension — every value in the returned mapping is the pair of
an empty `"d"` list and an empty `"i"` set, because `.append` on a `set`
raises `AttributeError`, swallowed by `except: pass`.  The claim, matching
the docstring's intent, says the dimensions of `..dd`/`..di` files are
collected under `"d"`/`"i"`. -/
theorem c6_split_mode_collects_nothing (u : Str) (listing : List DirEntry)
    (kv : Str × (List Int × List Int)) (hkv : kv ∈ get_samplers_split u listing) :
    kv.2 = ([], []) := by
  unfold get_samplers_split at hkv
  obtain ⟨kv₀, hkv₀, hmap⟩ := List.mem_map.mp hkv
  have h := splitFold_values u listing [] (by simp) kv₀ hkv₀
  have h1 : kv₀.2.1 = [] := by rw [h]
  have h2 : kv₀.2.2 = [] := by rw [h]
  have hs : pySorted [] = [] := rfl
  subst hmap
  simp [h1, h2, hs]

/-- C6 witness: a directory holding a single executable `foo_2dd` yields, in
split mode, the entry `("foo", ([], []))` — no dimension `2` anywhere. -/
theorem c6_witness :
    (⟨"foo".toList, ([], [])⟩ : Str × (List Int × List Int)) ∈
        get_samplers_split [] [DirEntry.mk "foo_2dd".toList true false] ∧
      ((⟨"foo".toList, ([], [])⟩ : Str × (List Int × List Int))).2 = ([], []) :=
  ⟨by decide, c6_split_mode_collects_nothing [] [DirEntry.mk "foo_2dd".toList true false]
    ⟨"foo".toList, ([], [])⟩ (by decide)⟩

/-- C7 (code_bug evidence): `Discrepancy.compute` raises `TypeError` on every
input — line 520 passes two positional arguments to `PointWriter.write`,
which takes only one besides `self` — so it never returns the parsed metric
list the claim (and its own docstring) promises. -/
theorem c7_compute_always_typeError {α β : Type} (rest : List (List α) → Except PyErr β)
    (points : List (List α)) :
    Discrepancy.compute rest points = Except.error PyErr.typeError := by
  unfold Discrepancy.compute
  rfl

/-- C8 (code_bug evidence): `set_wdir` on an existing directory returns with
the configuration (and filesystem) unchanged — the assignment on line 42 is
to a function-local name — so `Sampler.sample`'s temporary directory is still
the old working directory, not the one just "set". -/
theorem c8_set_wdir_leaves_config (c : UtkConfig) (fs : FS) (d : Str)
    (hex : pathExists fs d = true) (hne : d ≠ c.utkWdir) :
    set_wdir c fs d = Except.ok (c, fs) ∧ Sampler.tmpOutDir c ≠ d := by
  constructor
  · unfold set_wdir
    rw [if_pos hex]
  · exact fun h => hne h.symm

/-- C8 witness: after `set_wdir("/data")` (with `/data` existing) the
temporary files still go to the default `/tmp`, not `/data`. -/
theorem c8_witness :
    pathExists ["/data".toList, "/tmp".toList] "/data".toList = true ∧
      "/data".toList ≠ defaultUtkConfig.utkWdir ∧
      (set_wdir defaultUtkConfig ["/data".toList, "/tmp".toList] "/data".toList =
          Except.ok (defaultUtkConfig, ["/data".toList, "/tmp".toList]) ∧
        Sampler.tmpOutDir defaultUtkConfig ≠ "/data".toList) :=
  ⟨by decide, by decide,
    c8_set_wdir_leaves_config defaultUtkConfig ["/data".toList, "/tmp".toList]
      "/data".toList (by decide) (by decide)⟩

/-- C9 counterexample: `set_wdir` on the non-existing path `/tmp/work`
(whose parent `/tmp` exists) does not raise `FileNotFoundError` as the claim
states for both configuration functions — it creates the directory and
returns normally (as its own docstring says: "it is created if needed"). -/
theorem c9_counterexample :
    pathExists ["/tmp".toList] "/tmp/work".toList = false ∧
      set_wdir defaultUtkConfig ["/tmp".toList] "/tmp/work".toList =
        Except.ok (defaultUtkConfig, ["/tmp/work".toList, "/tmp".toList]) := by
  constructor
  · rfl
  · rfl

/-- C9 amended: for a path that does not exist, `set_dir` raises
`FileNotFoundError` leaving the configuration unchanged (the error return
carries no new configuration), while `set_wdir` instead creates the missing
directory and returns normally whenever the path's parent exists. -/
theorem c9_amended (c : UtkConfig) (fs : FS) (d : Str)
    (hne : pathExists fs d = false) :
    set_dir c fs d = Except.error PyErr.fileNotFoundError ∧
      (pathExists fs (dirnameOf d) = true →
        set_wdir c fs d = Except.ok (c, d :: fs)) := by
  constructor
  · unfold set_dir
    rw [if_neg (by simp [hne])]
  · intro hpar
    unfold set_wdir
    rw [if_neg (by simp [hne])]
    unfold os_mkdir
    rw [if_pos hpar]

/-- C9 amended, witness at `/tmp/w` over a filesystem holding only `/tmp`. -/
theorem c9_amended_witness :
    set_dir defaultUtkConfig ["/tmp".toList] "/tmp/w".toList =
        Except.error PyErr.fileNotFoundError ∧
      set_wdir defaultUtkConfig ["/tmp".toList] "/tmp/w".toList =
        Except.ok (defaultUtkConfig, "/tmp/w".toList :: ["/tmp".toList]) :=
  ⟨(c9_amended defaultUtkConfig ["/tmp".toList] "/tmp/w".toList (by rfl)).1,
    (c9_amended defaultUtkConfig ["/tmp".toList] "/tmp/w".toList (by rfl)).2 (by rfl)⟩

/-- C5: on a binary file made of a 4-byte header followed by exactly
`n * d` big-endian 8-byte doubles, `read_bin` skips the header, decodes the
doubles in order and reshapes them row-major into `n` rows of `d`: entry
`(i, j)` is the big-endian word of payload bytes `8*(i*d+j) .. 8*(i*d+j)+7`. -/
theorem c5_read_bin (n d : Nat) (header payload : List Nat)
    (hd0 : 0 < d) (hh : header.length = 4) (hp : payload.length = 8 * (n * d)) :
    ∃ rows, PointReader.read_bin n d (header ++ payload) = some rows ∧
      rows.length = n ∧
      (∀ i, i < n → (nth rows i []).length = d) ∧
      (∀ i j, i < n → j < d →
        nth (nth rows i []) j 0 =
          beWord ((payload.drop (8 * (i * d + j))).take 8)) := by
  have hdrop : (header ++ payload).drop 4 = payload := by
    rw [← hh, List.drop_left]
  obtain ⟨hlen8, hnth8⟩ := chunksD_spec (n * d) 8 payload (by omega) hp
  have hvlen : ((chunksD 8 payload).map beWord).length = n * d := by
    simp [hlen8]
  have hvnth : ∀ t, t < n * d →
      nth ((chunksD 8 payload).map beWord) t 0 =
        beWord ((payload.drop (8 * t)).take 8) := by
    intro t ht
    rw [nth_map beWord _ t [] 0 (by rw [hlen8]; exact ht), hnth8 t ht]
  obtain ⟨hrlen, hrnth⟩ := chunksD_spec n d ((chunksD 8 payload).map beWord) hd0
    (by rw [hvlen]; ring)
  refine ⟨chunksD d ((chunksD 8 payload).map beWord), ?_, hrlen, ?_, ?_⟩
  · simp only [PointReader.read_bin, hdrop]
    rw [if_pos hvlen]
  · intro i hi
    rw [hrnth i hi, List.length_take, List.length_drop, hvlen]
    have hle : d * i + d ≤ n * d := by
      have h1 : d * (i + 1) ≤ d * n := Nat.mul_le_mul_left d hi
      calc d * i + d = d * (i + 1) := by ring
        _ ≤ d * n := h1
        _ = n * d := by ring
    omega
  · intro i j hi hj
    have hbound : i * d + j < n * d := by
      have h1 : (i + 1) * d ≤ n * d := Nat.mul_le_mul_right d hi
      calc i * d + j < i * d + d := by omega
        _ = (i + 1) * d := by ring
        _ ≤ n * d := h1
    have hidx : d * i + j = i * d + j := by ring
    rw [hrnth i hi, nth_take d _ j 0 hj, nth_drop (d * i) _ j 0, hidx,
      hvnth (i * d + j) hbound]

/-- C5 witness: a 12-byte file, header `00 00 00 01` and one value `42`,
read as a (1, 1) array. -/
theorem c5_witness :
    ∃ rows, PointReader.read_bin 1 1 ([0, 0, 0, 1] ++ [0, 0, 0, 0, 0, 0, 0, 42]) =
        some rows ∧
      rows.length = 1 ∧
      (∀ i, i < 1 → (nth rows i []).length = 1) ∧
      (∀ i j, i < 1 → j < 1 →
        nth (nth rows i []) j 0 =
          beWord ((([0, 0, 0, 0, 0, 0, 0, 42] : List Nat).drop (8 * (i * 1 + j))).take 8)) :=
  c5_read_bin 1 1 [0, 0, 0, 1] [0, 0, 0, 0, 0, 0, 0, 42] (by decide) (by decide)
    (by decide)

/-! ## Helper lemmas: takeWhile / dropWhile structure for `extOf` -/

theorem takeWhile_cons_false {p : α → Bool} {y : α} (l : List α)
    (h : p y = false) : (y :: l).takeWhile p = [] := by
  simp [List.takeWhile_cons, h]

theorem takeWhile_append_all {p : α → Bool} :
    ∀ (xs ys : List α), (∀ x ∈ xs, p x = true) →
      (xs ++ ys).takeWhile p = xs ++ ys.takeWhile p := by
  intro xs
  induction xs with
  | nil => intro ys _; rfl
  | cons a t ih =>
    intro ys hall
    rw [List.cons_append, List.takeWhile_cons, if_pos (hall a (by simp)),
      ih ys (fun x hx => hall x (by simp [hx]))]
    rfl

theorem head_false_of_dropWhile (p : α → Bool) :
    ∀ (l : List α) (x : α) (xs : List α), l.dropWhile p = x :: xs → p x = false := by
  intro l
  induction l with
  | nil => intro x xs h; simp at h
  | cons a t ih =>
    intro x xs h
    by_cases hp : p a = true
    · rw [List.dropWhile_cons, if_pos hp] at h
      exact ih x xs h
    · rw [List.dropWhile_cons, if_neg hp] at h
      cases h
      simpa using hp

theorem extOf_def (p : Str) : extOf p =
    (if ((lastComponent p).reverse.takeWhile (fun c => c != '.')).length =
        (lastComponent p).length then []
     else
       if ((lastComponent p).take ((lastComponent p).length -
           ((lastComponent p).reverse.takeWhile (fun c => c != '.')).length - 1)).any
           (fun c => c != '.') then
         '.' :: ((lastComponent p).reverse.takeWhile (fun c => c != '.')).reverse
       else []) := rfl

/-- The code's `splitext`-based extension test agrees with the declarative
reading "the last component is `pre ++ ".dat"` with a non-dot character in
`pre`". -/
theorem extOf_eq_dat_iff (p : Str) : extOf p = datLit ↔ hasDatExt p := by
  rw [extOf_def]
  unfold hasDatExt
  generalize lastComponent p = base
  set q : Char → Bool := fun c => c != '.' with hq
  have hdat : datLit = '.' :: ['d', 'a', 't'] := rfl
  constructor
  · intro heq
    by_cases hlen : (base.reverse.takeWhile q).length = base.length
    · rw [if_pos hlen] at heq
      exact absurd heq (by decide)
    · rw [if_neg hlen] at heq
      have hsplit := List.takeWhile_append_dropWhile (p := q) (l := base.reverse)
      cases hdw : base.reverse.dropWhile q with
      | nil =>
        rw [hdw, List.append_nil] at hsplit
        have : (base.reverse.takeWhile q).length = base.length := by
          rw [hsplit]
          exact List.length_reverse base
        exact absurd this hlen
      | cons y rest =>
        have hy : q y = false := head_false_of_dropWhile q base.reverse y rest hdw
        have hy₂ : y = '.' := by simpa [q] using hy
        subst hy₂
        rw [hdw] at hsplit
        have hbase : base = rest.reverse ++ '.' :: (base.reverse.takeWhile q).reverse := by
          calc base = base.reverse.reverse := (List.reverse_reverse base).symm
            _ = (base.reverse.takeWhile q ++ '.' :: rest).reverse := by rw [hsplit]
            _ = ('.' :: rest).reverse ++ (base.reverse.takeWhile q).reverse := by
                rw [List.reverse_append]
            _ = rest.reverse ++ '.' :: (base.reverse.takeWhile q).reverse := by
                simp
        have hlens : base.length =
            rest.length + 1 + (base.reverse.takeWhile q).length := by
          have h := congrArg List.length hbase
          simp at h
          omega
        have harith : base.length - (base.reverse.takeWhile q).length - 1 =
            rest.reverse.length := by
          simp only [List.length_reverse]
          omega
        have hpre : base.take (base.length - (base.reverse.takeWhile q).length - 1) =
            rest.reverse := by
          rw [harith]
          conv_lhs => rw [hbase]
          exact List.take_left rest.reverse _
        rw [hpre] at heq
        by_cases hany : rest.reverse.any q = true
        · rw [if_pos hany] at heq
          rw [hdat] at heq
          injection heq with h1 h2
          refine ⟨rest.reverse, ?_, ?_⟩
          · rw [hbase, h2, hdat]
          · obtain ⟨c, hc, hcq⟩ := List.any_eq_true.mp hany
            exact ⟨c, hc, by simpa [q] using hcq⟩
        · rw [if_neg hany] at heq
          exact absurd heq (by decide)
  · rintro ⟨pre, hbe, c, hc, hcne⟩
    have hrev : base.reverse = ['t', 'a', 'd'] ++ '.' :: pre.reverse := by
      rw [hbe, List.reverse_append, hdat]
      simp
    have htw : base.reverse.takeWhile q = ['t', 'a', 'd'] := by
      rw [hrev, takeWhile_append_all ['t', 'a', 'd'] _ (by decide),
        takeWhile_cons_false _ (by simp [q])]
      rfl
    have hblen : base.length = pre.length + 4 := by
      rw [hbe]
      simp [hdat]
    rw [htw]
    have hlen : ¬((['t', 'a', 'd'] : Str).length = base.length) := by
      simp only [List.length_cons, List.length_nil]
      omega
    rw [if_neg hlen]
    have harith : base.length - (['t', 'a', 'd'] : Str).length - 1 = pre.length := by
      simp only [List.length_cons, List.length_nil]
      omega
    have hpre : base.take (base.length - (['t', 'a', 'd'] : Str).length - 1) = pre := by
      rw [harith]
      conv_lhs => rw [hbe]
      exact List.take_left pre _
    rw [hpre]
    have hany : pre.any q = true :=
      List.any_eq_true.mpr ⟨c, hc, by simpa [q] using hcne⟩
    rw [if_pos hany]
    rfl

/-- C10: `PointReader.read` dispatches to the text reader exactly when the
path's extension is `".dat"` (the last path component ends in `".dat"` with
some non-dot character before the suffix, matching `os.path.splitext`, so
dotfiles like `".dat"` itself count as having no extension), and to the
binary reader for every other extension, including none. -/
theorem c10_read_dispatch {α β : Type} (fp : Str) (tv : α) (bv : β) :
    (PointReader.read fp tv bv = ReadOutcome.text tv ↔ hasDatExt fp) ∧
      (PointReader.read fp tv bv = ReadOutcome.bin bv ↔ ¬hasDatExt fp) := by
  unfold PointReader.read
  by_cases h : extOf fp = datLit
  · have hd := (extOf_eq_dat_iff fp).mp h
    rw [if_pos h]
    constructor
    · exact ⟨fun _ => hd, fun _ => rfl⟩
    · constructor
      · intro hbin
        cases hbin
      · intro hnd
        exact absurd hd hnd
  · have hnd : ¬hasDatExt fp := fun hh => h ((extOf_eq_dat_iff fp).mpr hh)
    rw [if_neg h]
    constructor
    · constructor
      · intro htxt
        cases htxt
      · intro hd
        exact absurd hd hnd
    · exact ⟨fun _ => hnd, fun _ => rfl⟩

/-- C1 counterexample: in a directory whose configured UTK path is `"ddir"`
(so every joined file path contains `"dd"`), the executables `foo_7xy` and
`bar_xdd` yield the key set `{"foo"}` — `foo_7xy` qualifies through the
directory prefix and parses `7`, while `bar_xdd` fails the `int` parse — but
the claim (filter on the file name, no parse-failure exclusion) predicts
exactly `{"bar"}`. -/
theorem c1_counterexample :
    (get_samplers "ddir".toList
        [DirEntry.mk "foo_7xy".toList true false,
          DirEntry.mk "bar_xdd".toList true false]).map Prod.fst =
      ["foo".toList] ∧
      claimedKeys
        [DirEntry.mk "foo_7xy".toList true false,
          DirEntry.mk "bar_xdd".toList true false] = ["bar".toList] ∧
      (["foo".toList] : List Str) ≠ ["bar".toList] :=
  ⟨by decide, by decide, by decide⟩

/-- C1 amended: with `split_i_d=False`, `get_samplers` maps a name to a value
exactly when some executable non-directory entry whose full joined path
contains `"dd"` or `"di"` carries that name (part before the final
underscore) and its trailing token, last two characters removed, parses as an
integer; the value is then the strictly sorted list of exactly the distinct
dimensions so parsed. -/
theorem c1_get_samplers_amended (u : Str) (listing : List DirEntry) (nm : Str) :
    (alookup (get_samplers u listing) nm = none ↔ dimsOf u listing nm = []) ∧
      ∀ l, alookup (get_samplers u listing) nm = some l →
        List.Sorted (fun a b : Int => a < b) l ∧
          ∀ x : Int, x ∈ l ↔ x ∈ dimsOf u listing nm := by
  have hfold := lookup_samplerFold u listing [] nm
  have h0 : alookup ([] : List (Str × List Int)) nm = none := rfl
  rw [h0] at hfold
  unfold get_samplers
  rw [alookup_map pySorted (listing.foldl (samplerStep u) []) nm, hfold]
  by_cases hd : dimsOf u listing nm = []
  · rw [if_pos hd]
    refine ⟨by simp [hd], ?_⟩
    intro l hl
    simp at hl
  · rw [if_neg hd]
    refine ⟨by simp [hd], ?_⟩
    intro l hl
    simp only [Option.map] at hl
    injection hl with hl
    have hnodup : (addAll [] (dimsOf u listing nm)).Nodup :=
      nodup_addAll (dimsOf u listing nm) [] (by simp)
    have hperm := List.perm_insertionSort (fun a b : Int => a ≤ b)
      (addAll [] (dimsOf u listing nm))
    have hsorted := List.sorted_insertionSort (fun a b : Int => a ≤ b)
      (addAll [] (dimsOf u listing nm))
    have hnodup₂ : (pySorted (addAll [] (dimsOf u listing nm))).Nodup :=
      hperm.nodup_iff.mpr hnodup
    have hlt : List.Sorted (fun a b : Int => a < b)
        (pySorted (addAll [] (dimsOf u listing nm))) :=
      List.Sorted.lt_of_le hsorted hnodup₂
    subst hl
    refine ⟨hlt, ?_⟩
    intro x
    rw [pySorted, (List.perm_insertionSort _ _).mem_iff, mem_addAll]
    simp

/-- C1 amended, witness: the spec's own example — executables `foo_2dd` and
`foo_3dd` — yields `foo ↦ [2, 3]`, strictly sorted and holding exactly the
parsed dimensions. -/
theorem c1_amended_witness :
    alookup
        (get_samplers []
          [DirEntry.mk "foo_2dd".toList true false,
            DirEntry.mk "foo_3dd".toList true false]) "foo".toList =
      some [2, 3] ∧
      (List.Sorted (fun a b : Int => a < b) [2, 3] ∧
        ∀ x : Int, x ∈ ([2, 3] : List Int) ↔
          x ∈ dimsOf []
            [DirEntry.mk "foo_2dd".toList true false,
              DirEntry.mk "foo_3dd".toList true false] "foo".toList) :=
  ⟨by decide,
    (c1_get_samplers_amended []
      [DirEntry.mk "foo_2dd".toList true false,
        DirEntry.mk "foo_3dd".toList true false] "foo".toList).2 [2, 3] (by decide)⟩

/-- `__process_header` writes nothing to an empty file (line 298: `tell()`
is `0`). -/
theorem processHeader_nil (cfg : WriterCfg) : PointWriter.processHeader cfg [] = [] := by
  unfold PointWriter.processHeader
  by_cases h : cfg.append <;> simp [h]

/-- C4: writing two point sets in append mode to an initially empty file
puts exactly one sentinel line between the blocks: no sentinel before the
first block, and before the second the trailing newline already present is
detected, so only the sentinel and its newline are inserted. -/
theorem c4_append_sentinel {α : Type} (render : α → Str) (cfg : WriterCfg)
    (pts1 pts2 : List (List α)) (ha : cfg.append = true) (h1 : pts1 ≠ []) :
    PointWriter.write render cfg (PointWriter.write render cfg [] pts1) pts2 =
      writePoints render cfg.sep pts1 ++ cfg.psep ++ '\n' ::
        writePoints render cfg.sep pts2 := by
  have hw1 : PointWriter.write render cfg [] pts1 = writePoints render cfg.sep pts1 := by
    unfold PointWriter.write
    rw [processHeader_nil]
    rfl
  rw [hw1]
  have hrows : pts1.map (renderRow render cfg.sep) ≠ [] := by simpa using h1
  have hne : writePoints render cfg.sep pts1 ≠ [] := by
    unfold writePoints
    exact rowsText_ne_nil hrows
  have hlast : (writePoints render cfg.sep pts1).getLast? = some '\n' := by
    unfold writePoints
    exact rowsText_getLast hrows
  unfold PointWriter.write PointWriter.processHeader
  rw [if_pos ha, if_neg hne, if_neg (not_not_intro hlast)]
  simp

/-- C4 witness: two one-point sets written in sequence with the default
configuration. -/
theorem c4_witness :
    (defaultWriterCfg.append = true ∧ ([[1]] : List (List Nat)) ≠ []) ∧
      PointWriter.write (fun k : Nat => (Nat.repr k).toList) defaultWriterCfg
          (PointWriter.write (fun k : Nat => (Nat.repr k).toList) defaultWriterCfg []
            [[1]]) [[2]] =
        writePoints (fun k : Nat => (Nat.repr k).toList) defaultWriterCfg.sep [[1]] ++
          defaultWriterCfg.psep ++ '\n' ::
            writePoints (fun k : Nat => (Nat.repr k).toList) defaultWriterCfg.sep
              [[2]] :=
  ⟨⟨rfl, by decide⟩,
    c4_append_sentinel (fun k : Nat => (Nat.repr k).toList) defaultWriterCfg
      [[1]] [[2]] rfl (by decide)⟩

/-- C2: a non-empty `n × d` array written in text mode with the default
separator and read back with matching `n`, `d` is recovered exactly, the
element serialisation being abstracted by any `render`/`parse` pair that
round-trips (as `str`/`np.double` do on doubles up to the claim's
floating-point tolerance), renders non-empty and without whitespace. -/
theorem c2_text_roundtrip {α : Type} (parse : Str → Option α) (render : α → Str)
    (cfg : WriterCfg) (n d : Nat) (pts : List (List α))
    (hsep : cfg.sep = '\t') (hn : pts.length = n) (hn0 : 0 < n) (hd0 : 0 < d)
    (hd : ∀ r ∈ pts, r.length = d)
    (htok : ∀ r ∈ pts, ∀ x ∈ r, render x ≠ [] ∧
      (∀ ch ∈ render x, isPyWS ch = false) ∧ parse (render x) = some x) :
    PointReader.read_text parse '\t' n d (PointWriter.write render cfg [] pts) =
      some pts := by
  have hw : PointWriter.write render cfg [] pts =
      rowsText (pts.map (renderRow render '\t')) := by
    unfold PointWriter.write writePoints
    rw [processHeader_nil, hsep]
    rfl
  have hptsne : pts ≠ [] := by
    intro h
    rw [h] at hn
    simp at hn
    omega
  have hrowsne : pts.map (renderRow render '\t') ≠ [] := by simpa using hptsne
  have hnonl : ∀ r ∈ pts.map (renderRow render '\t'), '\n' ∉ r := by
    intro r hr hmem
    obtain ⟨row, hrow, rfl⟩ := List.mem_map.mp hr
    rcases mem_joinSep (row.map render) hmem with h | ⟨t, ht, hxt⟩
    · exact absurd h (by decide)
    · obtain ⟨x, hx, rfl⟩ := List.mem_map.mp ht
      have := (htok row hrow x hx).2.1 '\n' hxt
      exact absurd this (by decide)
  have hlines : pyLines (rowsText (pts.map (renderRow render '\t'))) =
      pts.map (renderRow render '\t') := pyLines_rowsText hrowsne hnonl
  rw [hw]
  simp only [PointReader.read_text, hlines]
  rw [if_pos (by simp [hn])]
  apply mapMO_map_id
  intro r hr
  have hrl : r.length = d := hd r hr
  have hrne : r ≠ [] := by
    intro h
    rw [h] at hrl
    simp at hrl
    omega
  obtain ⟨x₀, r', rfl⟩ := List.exists_cons_of_ne_nil hrne
  have htokr := htok _ hr
  have htse : ∀ t ∈ (x₀ :: r').map render, t ≠ [] := by
    intro t ht
    obtain ⟨x, hx, rfl⟩ := List.mem_map.mp ht
    exact (htokr x hx).1
  have htsw : ∀ t ∈ (x₀ :: r').map render, ∀ ch ∈ t, isPyWS ch = false := by
    intro t ht ch hch
    obtain ⟨x, hx, rfl⟩ := List.mem_map.mp ht
    exact (htokr x hx).2.1 ch hch
  have hstrip : pyStrip (joinSep '\t' ((x₀ :: r').map render)) =
      joinSep '\t' ((x₀ :: r').map render) := by
    obtain ⟨ch, hch, hchm⟩ :=
      joinSep_head (c := '\t') ((htokr x₀ (by simp)).1) (r'.map render)
    obtain ⟨ch₂, u, hch₂, hu, hchm₂⟩ :=
      joinSep_last (c := '\t') ((x₀ :: r').map render) (by simp) htse
    apply pyStrip_id
    · intro x hx
      rw [List.map_cons] at hx
      rw [hch] at hx
      injection hx with hx
      subst hx
      exact (htokr x₀ (by simp)).2.1 ch hchm
    · intro x hx
      rw [hch₂] at hx
      injection hx with hx
      subst hx
      exact htsw u hu ch₂ hchm₂
  have hsplit : splitChar '\t' (joinSep '\t' ((x₀ :: r').map render)) =
      (x₀ :: r').map render := by
    apply splitChar_joinSep _ (by simp)
    intro t ht x hxt he
    have := htsw t ht x hxt
    rw [he] at this
    exact absurd this (by decide)
  have hr2 : renderRow render '\t' (x₀ :: r') = joinSep '\t' ((x₀ :: r').map render) := rfl
  simp only [hr2, hstrip, hsplit]
  rw [if_pos (by simpa using hrl)]
  exact mapMO_map_id (x₀ :: r') (fun x hx => (htokr x hx).2.2)

/-- C2 witness: the 2×2 array `[[1, 2], [3, 4]]` over decimal rendering and
parsing round-trips through write-then-read. -/
theorem c2_witness :
    PointReader.read_text (fun s => (digitsToNat s).map (fun k => k)) '\t' 2 2
        (PointWriter.write (fun k : Nat => (Nat.repr k).toList) defaultWriterCfg []
          [[1, 2], [3, 4]]) = some [[1, 2], [3, 4]] :=
  c2_text_roundtrip (fun s => (digitsToNat s).map (fun k => k))
    (fun k : Nat => (Nat.repr k).toList) defaultWriterCfg 2 2 [[1, 2], [3, 4]]
    rfl (by decide) (by decide) (by decide) (by decide) (by decide)

/-- `dict[k] = v` on a key not yet present appends the pair at the end. -/
theorem dictInsert_fresh :
    ∀ (m : List (Str × β)) (k : Str) (v : β), k ∉ m.map Prod.fst →
      dictInsert m k v = m ++ [(k, v)] := by
  intro m
  induction m with
  | nil => intro k v _; rfl
  | cons kv r ih =>
    intro k v h
    obtain ⟨k₂, v₂⟩ := kv
    rw [List.map_cons, List.mem_cons] at h
    push_neg at h
    obtain ⟨h1, h2⟩ := h
    have hk : ¬k₂ = k := fun he => h1 (by simp [he])
    simp [dictInsert, hk, ih k v h2]

/-- Building one result dictionary from zipped (name, token) pairs with
distinct names, all fresh for the accumulator: the key list is exactly the
accumulator's keys followed by the pair names, and every pair ends up looked
up at its parsed value. -/
theorem buildLineDict_spec {α : Type} (parseD : Str → Option α) :
    ∀ (pairs : List (Str × Str)) (acc : List (Str × α)),
      (∀ pr ∈ pairs, (parseD pr.2).isSome = true) →
      (pairs.map Prod.fst).Nodup →
      (∀ k₁ ∈ pairs.map Prod.fst, k₁ ∉ acc.map Prod.fst) →
      ∃ dict, buildLineDict parseD pairs acc = some dict ∧
        dict.map Prod.fst = acc.map Prod.fst ++ pairs.map Prod.fst ∧
        (∀ k, k ∉ pairs.map Prod.fst → alookup dict k = alookup acc k) ∧
        (∀ nm tk, (nm, tk) ∈ pairs → alookup dict nm = parseD tk) := by
  intro pairs
  induction pairs with
  | nil =>
    intro acc _ _ _
    exact ⟨acc, rfl, by simp, fun k _ => rfl, fun nm tk h => by simp at h⟩
  | cons pr rest ih =>
    intro acc hsome hnodup hfresh
    obtain ⟨nm, tk⟩ := pr
    obtain ⟨v, hv⟩ := Option.isSome_iff_exists.mp (hsome (nm, tk) (by simp))
    have hnd : (rest.map Prod.fst).Nodup := (List.nodup_cons.mp (by simpa using hnodup)).2
    have hnm : nm ∉ rest.map Prod.fst := (List.nodup_cons.mp (by simpa using hnodup)).1
    have hnmacc : nm ∉ acc.map Prod.fst := hfresh nm (by simp)
    have hins : dictInsert acc nm v = acc ++ [(nm, v)] :=
      dictInsert_fresh acc nm v hnmacc
    have hfresh₂ : ∀ k₁ ∈ rest.map Prod.fst,
        k₁ ∉ (dictInsert acc nm v).map Prod.fst := by
      intro k₁ hk₁
      rw [hins, List.map_append, List.mem_append]
      rintro (h | h)
      · exact hfresh k₁ (by simp [hk₁]) h
      · simp only [List.map_cons, List.map_nil, List.mem_singleton] at h
        subst h
        exact hnm hk₁
    obtain ⟨dict, hdict, hkeys, hother, hmem⟩ := ih (dictInsert acc nm v)
      (fun pr₂ hpr => hsome pr₂ (by simp [hpr])) hnd hfresh₂
    refine ⟨dict, ?_, ?_, ?_, ?_⟩
    · simp [buildLineDict, hv, hdict]
    · rw [hkeys, hins, List.map_append]
      simp
    · intro k hk
      have hk₁ : k ≠ nm := by
        intro h
        exact hk (by simp [h])
      have hk₂ : k ∉ rest.map Prod.fst := fun h => hk (by simp [h])
      rw [hother k hk₂, alookup_dictInsert_other v hk₁]
    · intro nm₂ tk₂ hmem₂
      rcases List.mem_cons.mp hmem₂ with heq | hmem₃
      · injection heq with e1 e2
        subst e1
        subst e2
        rw [hother nm₂ hnm, alookup_dictInsert_self, hv]
      · exact hmem nm₂ tk₂ hmem₃

theorem nth_zip_mem :
    ∀ (l₁ : List γ) (l₂ : List δ) (i : Nat) (d₁ : γ) (d₂ : δ),
      i < l₁.length → l₁.length = l₂.length →
      (nth l₁ i d₁, nth l₂ i d₂) ∈ l₁.zip l₂ := by
  intro l₁
  induction l₁ with
  | nil => intro l₂ i d₁ d₂ hi _; simp at hi
  | cons x t ih =>
    intro l₂ i d₁ d₂ hi hlen
    cases l₂ with
    | nil => simp at hlen
    | cons y t₂ =>
      cases i with
      | zero => simp [nth]
      | succ i =>
        have := ih t₂ i d₁ d₂ (by simpa using hi) (by simpa using hlen)
        exact List.mem_cons_of_mem _ this

/-- C3: on a file whose first line holds the separated column names and whose
data lines carry one (non-empty) token per (non-empty) name, all parseable,
`DiscrepancyReader.read` returns one dictionary per data line whose key list
is exactly the processed header names — original tokens with the first
`exclude` characters dropped and lower-cased, empty tokens skipped before
processing, no other key present — and in which the `i`-th such name maps to
the parse of the `i`-th (empty-skipped) token of that line. -/
theorem c3_discrepancy_read {α : Type} (parseD : Str → Option α) (sep : Char)
    (exclude : Nat) (content first : Str) (dataLines : List Str)
    (hlines : pyLines content = first :: dataLines)
    (hnodup : (procNames sep exclude first).Nodup)
    (haligned : ∀ line ∈ dataLines,
      (filtToks sep line).length = (procNames sep exclude first).length ∧
      ∀ tk ∈ filtToks sep line, (parseD tk).isSome = true) :
    ∃ res, DiscrepancyReader.read parseD sep exclude content = some res ∧
      res.length = dataLines.length ∧
      (∀ ℓ, ℓ < dataLines.length →
        (nth res ℓ []).map Prod.fst = procNames sep exclude first) ∧
      ∀ ℓ i, ℓ < dataLines.length → i < (procNames sep exclude first).length →
        alookup (nth res ℓ []) (nth (procNames sep exclude first) i []) =
          parseD (nth (filtToks sep (nth dataLines ℓ [])) i []) := by
  have hread : DiscrepancyReader.read parseD sep exclude content =
      mapMO (fun line => buildLineDict parseD
        ((procNames sep exclude first).zip (filtToks sep line)) []) dataLines := by
    simp only [DiscrepancyReader.read, hlines, List.headD_cons, List.tail_cons]
  have hsome : ∀ line ∈ dataLines,
      ((fun line => buildLineDict parseD
        ((procNames sep exclude first).zip (filtToks sep line)) []) line).isSome
        = true := by
    intro line hline
    obtain ⟨hlen, hparse⟩ := haligned line hline
    have hkeys : ((procNames sep exclude first).zip (filtToks sep line)).map
        Prod.fst = procNames sep exclude first :=
      List.map_fst_zip _ _ (le_of_eq hlen.symm)
    obtain ⟨dict, hdict, _, _, _⟩ := buildLineDict_spec parseD
      ((procNames sep exclude first).zip (filtToks sep line)) []
      (fun pr hpr => by
        obtain ⟨nm, tk⟩ := pr
        exact hparse tk (List.of_mem_zip hpr).2)
      (by rw [hkeys]; exact hnodup) (by simp)
    simp [hdict]
  obtain ⟨res, hres⟩ := mapMO_isSome dataLines hsome
  obtain ⟨hreslen, hresnth⟩ := mapMO_nth dataLines res hres
  have hline : ∀ ℓ, ℓ < dataLines.length →
      (nth res ℓ []).map Prod.fst = procNames sep exclude first ∧
      ∀ i, i < (procNames sep exclude first).length →
        alookup (nth res ℓ []) (nth (procNames sep exclude first) i []) =
          parseD (nth (filtToks sep (nth dataLines ℓ [])) i []) := by
    intro ℓ hℓ
    have hline_mem : nth dataLines ℓ [] ∈ dataLines := nth_mem dataLines ℓ [] hℓ
    obtain ⟨hlen, hparse⟩ := haligned _ hline_mem
    have hfl := hresnth ℓ [] [] hℓ
    have hkeys : ((procNames sep exclude first).zip
        (filtToks sep (nth dataLines ℓ []))).map Prod.fst =
          procNames sep exclude first :=
      List.map_fst_zip _ _ (le_of_eq hlen.symm)
    obtain ⟨dict, hdict, hdkeys, _, hmem⟩ := buildLineDict_spec parseD
      ((procNames sep exclude first).zip (filtToks sep (nth dataLines ℓ []))) []
      (fun pr hpr => by
        obtain ⟨nm, tk⟩ := pr
        exact hparse tk (List.of_mem_zip hpr).2)
      (by rw [hkeys]; exact hnodup) (by simp)
    rw [hdict] at hfl
    injection hfl with hfl
    constructor
    · rw [← hfl, hdkeys, hkeys]
      rfl
    · intro i hi
      rw [← hfl]
      exact hmem _ _ (nth_zip_mem (procNames sep exclude first)
        (filtToks sep (nth dataLines ℓ [])) i [] [] hi hlen.symm)
  exact ⟨res, by rw [hread, hres], hreslen, fun ℓ hℓ => (hline ℓ hℓ).1,
    fun ℓ i hℓ hi => (hline ℓ hℓ).2 i hi⟩

/-- C3 witness: the docstring-style block — header `#A<tab><tab>#B`, data
line `1<tab><tab>2` — with token parsing abstracted as the identity. -/
theorem c3_witness :
    ∃ res, DiscrepancyReader.read (fun s => some s) '\t' 1
        "#A\t\t#B\n1\t\t2\n".toList = some res ∧
      res.length = (["1\t\t2".toList] : List Str).length ∧
      (∀ ℓ, ℓ < (["1\t\t2".toList] : List Str).length →
        (nth res ℓ []).map Prod.fst = procNames '\t' 1 "#A\t\t#B".toList) ∧
      ∀ ℓ i, ℓ < (["1\t\t2".toList] : List Str).length →
        i < (procNames '\t' 1 "#A\t\t#B".toList).length →
        alookup (nth res ℓ []) (nth (procNames '\t' 1 "#A\t\t#B".toList) i []) =
          (fun s : Str => some s)
            (nth (filtToks '\t' (nth (["1\t\t2".toList] : List Str) ℓ [])) i []) :=
  c3_discrepancy_read (fun s => some s) '\t' 1 "#A\t\t#B\n1\t\t2\n".toList
    "#A\t\t#B".toList ["1\t\t2".toList] (by decide) (by decide)
    (by
      intro line hline
      simp only [List.mem_singleton] at hline
      subst hline
      exact ⟨by decide, fun tk _ => rfl⟩)
